import Mathlib

/-!
# GraphicsOverlayDictionaryRenderer: message parser and graphic assembly

A shallow embedding of `GraphicsOverlayDictionaryRenderer::parseXmlFile` and
`GraphicsOverlayDictionaryRenderer::createGraphic`
(`ArcGISRuntimeSDKQt_CppSamples/DisplayInformation/GraphicsOverlayDictionaryRenderer/GraphicsOverlayDictionaryRenderer.cpp`).

Conventions of the embedding.

* A `QString` is a list of characters.
* The XML tokenizer (`QXmlStreamReader`) is represented by the list of tokens that
  successive `readNext()` calls return until `atEnd()` holds.
* `QList::operator[]` with an index outside the list is a fault (`Fault.indexOutOfRange`);
  functions that index return `Except Fault _`.
* Coordinates live in a linearly ordered type `R`; `QString::toDouble` is a parameter
  `toDouble : QString → R` of every definition that parses coordinates.
* The member state touched by `createGraphic` (the overlay's graphic list and `m_bbox`) is
  the record `Renderer R`, passed explicitly.
-/

namespace GraphicsOverlayDictionaryRenderer

/-! ## Qt strings -/

/-- A `QString`, as its sequence of characters. -/
abbrev QString := List Char

/-- The test `QChar::isSpace`: tab, line feed, vertical tab, form feed, carriage return,
space, next line, no-break space and the Unicode separator characters. -/
def QChar.isSpace (c : Char) : Bool :=
  let n := c.toNat
  n == 0x20 || (0x09 ≤ n && n ≤ 0x0d) || n == 0x85 || n == 0xa0 || n == 0x1680 ||
    (0x2000 ≤ n && n ≤ 0x200a) || n == 0x2028 || n == 0x2029 || n == 0x202f ||
    n == 0x205f || n == 0x3000

/-- The function `QString::trimmed` (and `QStringRef::trimmed`): the string without its
leading and trailing white space. -/
def QString.trimmed (s : QString) : QString :=
  ((s.dropWhile QChar.isSpace).reverse.dropWhile QChar.isSpace).reverse

/-- The function `QString::split(sep)` for a one-character separator, with the default
`KeepEmptyParts` behaviour: the fields between consecutive separators, empty ones
included; a string without separator (the empty string too) gives one field. -/
def QString.split (sep : Char) : QString → List QString
  | [] => [[]]
  | c :: cs =>
    if c = sep then [] :: QString.split sep cs
    else
      match QString.split sep cs with
      | [] => [[c]]
      | field :: fields => (c :: field) :: fields

/-- The value of a run of decimal digits, most significant first. -/
def QString.digitsValue (ds : QString) : Nat :=
  ds.foldl (fun acc c => 10 * acc + (c.toNat - 48)) 0

/-- A non-empty run of ASCII decimal digits. -/
def QString.isDigits (ds : QString) : Bool :=
  !ds.isEmpty && ds.all Char.isDigit

/-- The range of a C++ `int` (32 bits, two's complement). -/
def inIntRange (v : Int) : Bool :=
  decide (-2147483648 ≤ v) && decide (v ≤ 2147483647)

/-- The function `QString::toInt()` in base 10: white space around the number is ignored,
an optional sign precedes the digits, and the result is 0 when the conversion fails
(no digits, a character that is not a digit, or a value outside the range of `int`). -/
def QString.toInt (s : QString) : Int :=
  let signed : Bool × QString :=
    match QString.trimmed s with
    | '-' :: ds => (true, ds)
    | '+' :: ds => (false, ds)
    | ds => (false, ds)
  if QString.isDigits signed.2 then
    let v : Int := if signed.1 then -(QString.digitsValue signed.2 : Int)
      else (QString.digitsValue signed.2 : Int)
    if inIntRange v then v else 0
  else 0

/-- The range of a C++ `long long` (64 bits, two's complement). -/
def inLongLongRange (v : Int) : Bool :=
  decide (-9223372036854775808 ≤ v) && decide (v ≤ 9223372036854775807)

/-- The function `QString::toLongLong()` in base 10: as `QString::toInt`, with the range of
`long long`; the result is 0 when the conversion fails. -/
def QString.toLongLong (s : QString) : Int :=
  let signed : Bool × QString :=
    match QString.trimmed s with
    | '-' :: ds => (true, ds)
    | '+' :: ds => (false, ds)
    | ds => (false, ds)
  if QString.isDigits signed.2 then
    let v : Int := if signed.1 then -(QString.digitsValue signed.2 : Int)
      else (QString.digitsValue signed.2 : Int)
    if inLongLongRange v then v else 0
  else 0

/-- The conversion `int(v)` of a `long long` to a 32-bit `int`: the value modulo 2^32, in
the range of `int`. -/
def truncateToInt (v : Int) : Int :=
  (v + 2147483648) % 4294967296 - 2147483648

/-- The constant `FIELD_CONTROL_POINTS`. -/
def FIELD_CONTROL_POINTS : QString := "_control_points".toList

/-- The constant `FIELD_WKID`. -/
def FIELD_WKID : QString := "_wkid".toList

/-- The element name that delimits a message in `parseXmlFile`. -/
def MESSAGE : QString := "message".toList

/-! ## Variants and variant maps -/

/-- A `QVariant`, as far as this program uses it: the invalid variant that a default
construction gives, or a string. -/
inductive QVariant where
  | invalid
  | string (s : QString)
  deriving DecidableEq, Repr

/-- The function `QVariant::toString`: the invalid variant converts to the empty string. -/
def QVariant.toString : QVariant → QString
  | .invalid => []
  | .string s => s

/-- The function `QVariant::toInt`: the invalid variant converts to 0; a string is read
with `QString::toLongLong` and the `long long` is converted to `int`, which keeps its low
32 bits. -/
def QVariant.toInt : QVariant → Int
  | .invalid => 0
  | .string s => truncateToInt (QString.toLongLong s)

/-- A variant that holds a string that is not empty. -/
def QVariant.isText : QVariant → Bool
  | .string (_ :: _) => true
  | _ => false

/-- A `QVariantMap` (`QMap<QString, QVariant>`), as the list of its entries. Every
operation below reads and writes the first entry of a key only, so a key has at most one
observable value; the order of the entries carries no meaning. -/
structure QVariantMap where
  entries : List (QString × QVariant)
  deriving DecidableEq, Repr

namespace QVariantMap

/-- The empty map, the result of `clear()`. -/
def clear : QVariantMap := ⟨[]⟩

/-- The entry of a key, if the map has one. -/
def find (m : QVariantMap) (key : QString) : Option QVariant :=
  (m.entries.find? (fun e => decide (e.1 = key))).map Prod.snd

/-- The list `keys()`. -/
def keys (m : QVariantMap) : List QString :=
  m.entries.map Prod.fst

/-- The function `value(key)`: the entry of the key, or a default-constructed (invalid)
variant. -/
def value (m : QVariantMap) (key : QString) : QVariant :=
  (m.find key).getD QVariant.invalid

/-- Replace the value of the first entry of `key`, or add an entry at the end. -/
def insertEntry (key : QString) (v : QVariant) :
    List (QString × QVariant) → List (QString × QVariant)
  | [] => [(key, v)]
  | e :: es => if e.1 = key then (key, v) :: es else e :: insertEntry key v es

/-- The assignment `m[key] = v`. -/
def insert (m : QVariantMap) (key : QString) (v : QVariant) : QVariantMap :=
  ⟨insertEntry key v m.entries⟩

/-- The effect on the map of the non-const `operator[]` used as a read: a key that is
absent is inserted with a default-constructed value. -/
def touch (m : QVariantMap) (key : QString) : QVariantMap :=
  if m.keys.contains key then m else m.insert key QVariant.invalid

/-- The function `remove(key)`. -/
def remove (m : QVariantMap) (key : QString) : QVariantMap :=
  ⟨m.entries.filter (fun e => decide (e.1 ≠ key))⟩

end QVariantMap

/-- A record as `parseXmlFile` builds it: every value is a string that is not empty (line
137 stores trimmed text, and only when it is not empty). -/
def parsedRecord (m : QVariantMap) : Prop :=
  ∀ e ∈ m.entries, e.2.isText = true

instance (m : QVariantMap) : Decidable (parsedRecord m) := by
  unfold parsedRecord
  infer_instance

/-! ## Geometry (the mapping engine) -/

/-- Modelled from the spec: the extent of a geometry is its bounding rectangle; an
envelope is either empty (a default-constructed one, or the extent of an empty geometry)
or the rectangle between two corners. The spatial reference of an envelope is left out. -/
inductive Envelope (R : Type) where
  | empty
  | rect (xMin yMin xMax yMax : R)
  deriving DecidableEq, Repr

/-- A `Geometry` as `createGraphic` builds it: the default-constructed geometry, a
`Point(x, y, sr)`, or the multipoint that `MultipointBuilder::toGeometry` returns for a
point collection. The spatial reference is represented by its WKID. -/
inductive Geometry (R : Type) where
  | none
  | point (x y : R) (sr : Int)
  | multipoint (points : List (R × R)) (sr : Int)
  deriving DecidableEq, Repr

/-- Modelled from the spec: `Envelope::isEmpty`. -/
def Envelope.isEmpty {R : Type} : Envelope R → Bool
  | .empty => true
  | .rect _ _ _ _ => false

/-- Modelled from the spec: `Envelope::extent`, the envelope itself. -/
def Envelope.extent {R : Type} (e : Envelope R) : Envelope R := e

/-- Modelled from the spec: `GeometryEngine::unionOf` on two extents, followed by
`extent()`: the smallest rectangle that encloses both; the empty envelope adds nothing. -/
def GeometryEngine.unionOf {R : Type} [LinearOrder R] : Envelope R → Envelope R → Envelope R
  | .empty, b => b
  | a, .empty => a
  | .rect x0 y0 x1 y1, .rect u0 v0 u1 v1 => .rect (min x0 u0) (min y0 v0) (max x1 u1) (max y1 v1)

/-- Modelled from the spec: `Geometry::isEmpty`. A point is not empty; a multipoint is
empty when its point collection is ("if the collection ends up empty, the resulting
geometry is empty"); the default-constructed geometry is empty. -/
def Geometry.isEmpty {R : Type} : Geometry R → Bool
  | .none => true
  | .point _ _ _ => false
  | .multipoint points _ => points.isEmpty

/-- Modelled from the spec: `Geometry::extent`, the bounding rectangle of the geometry:
of a point, the degenerate rectangle at the point; of a multipoint, the smallest rectangle
around its points. -/
def Geometry.extent {R : Type} [LinearOrder R] : Geometry R → Envelope R
  | .none => .empty
  | .point x y _ => .rect x y x y
  | .multipoint points _ =>
    points.foldl (fun e p => GeometryEngine.unionOf e (.rect p.1 p.2 p.1 p.2)) .empty

/-- Containment of extents: `outer` encloses `inner`. The empty envelope is enclosed by
every envelope and encloses only itself. -/
def Envelope.contains {R : Type} [LinearOrder R] : Envelope R → Envelope R → Prop
  | _, .empty => True
  | .empty, .rect _ _ _ _ => False
  | .rect x0 y0 x1 y1, .rect u0 v0 u1 v1 => x0 ≤ u0 ∧ y0 ≤ v0 ∧ u1 ≤ x1 ∧ v1 ≤ y1

/-- A `Graphic`: a geometry with its attribute map. -/
structure Graphic (R : Type) where
  geometry : Geometry R
  attributes : QVariantMap
  deriving DecidableEq, Repr

/-- The member state of the renderer that `createGraphic` reads and writes: the graphic
list of `m_graphicsOverlay` and the bounding accumulator `m_bbox`. -/
structure Renderer (R : Type) where
  graphics : List (Graphic R)
  m_bbox : Envelope R
  deriving DecidableEq, Repr

/-- The state after construction: no graphic, an empty `m_bbox`. -/
def Renderer.init {R : Type} : Renderer R := ⟨[], .empty⟩

/-! ## createGraphic -/

/-- A fault of the run: an index outside a `QList`. -/
inductive Fault where
  | indexOutOfRange
  deriving DecidableEq, Repr

/-- The access `list[i]` of a `QStringList`, a fault outside the list. -/
def QStringList.at (list : List QString) (i : Nat) : Except Fault QString :=
  match list.get? i with
  | some s => .ok s
  | .none => .error Fault.indexOutOfRange

/-- Line 148 of `createGraphic`: the WKID of the spatial reference. -/
def resolveWkid (rawAttributes : QVariantMap) : Int :=
  if rawAttributes.keys.contains FIELD_WKID then (rawAttributes.value FIELD_WKID).toInt
  else 4326

/-- The body of the `foreach` loop of the multipoint branch: a pair string with at least
two comma-separated fields adds a point to the collection. -/
def addPointString {R : Type} (toDouble : QString → R) (collection : List (R × R))
    (pointString : QString) : Except Fault (List (R × R)) :=
  let coords := QString.split ',' pointString
  if coords.length ≥ 2 then do
    let c0 ← QStringList.at coords 0
    let c1 ← QStringList.at coords 1
    pure (collection ++ [(toDouble c0, toDouble c1)])
  else pure collection

/-- Lines 150 to 170 of `createGraphic`: the geometry built from the control points. -/
def buildGeometry {R : Type} (toDouble : QString → R) (rawAttributes : QVariantMap) :
    Except Fault (Geometry R) :=
  let sr := resolveWkid rawAttributes
  let pointStrings := QString.split ';' (rawAttributes.value FIELD_CONTROL_POINTS).toString
  if pointStrings.length = 1 then do
    -- It's a point
    let pointString ← QStringList.at pointStrings 0
    let coords := QString.split ',' pointString
    let c0 ← QStringList.at coords 0
    let c1 ← QStringList.at coords 1
    pure (Geometry.point (toDouble c0) (toDouble c1) sr)
  else do
    -- It's a multipoint
    let collection ← pointStrings.foldlM (addPointString toDouble) []
    pure (Geometry.multipoint collection sr)

/-- Lines 172 to 183 of `createGraphic`: a geometry that is not empty becomes a graphic
with the attributes left after removing the two reserved fields, is appended to the
overlay, and its extent enters `m_bbox`. -/
def appendGraphic {R : Type} [LinearOrder R] (geom : Geometry R) (rawAttributes : QVariantMap)
    (self : Renderer R) : Renderer R :=
  if !geom.isEmpty then
    let rawAttributes := (rawAttributes.remove FIELD_CONTROL_POINTS).remove FIELD_WKID
    let graphic : Graphic R := ⟨geom, rawAttributes⟩
    { graphics := self.graphics ++ [graphic]
      m_bbox :=
        if self.m_bbox.isEmpty then graphic.geometry.extent
        else (GeometryEngine.unionOf self.m_bbox.extent graphic.geometry.extent).extent }
  else self

/-- The method `createGraphic(rawAttributes)`. The read `rawAttributes[FIELD_CONTROL_POINTS]`
goes through the non-const `operator[]`, which inserts the key when it is absent. -/
def createGraphic {R : Type} [LinearOrder R] (toDouble : QString → R)
    (rawAttributes : QVariantMap) (self : Renderer R) : Except Fault (Renderer R) := do
  let geom ← buildGeometry toDouble rawAttributes
  pure (appendGraphic geom (rawAttributes.touch FIELD_CONTROL_POINTS) self)

/-- A decimal integer reader, used as `toDouble` where an example needs concrete
coordinates: it agrees with `QString::toDouble` on strings that spell an integer. -/
def decimal (s : QString) : Int := QString.toInt s

/-- An attribute map whose entries are all strings. -/
def record (fields : List (String × String)) : QVariantMap :=
  ⟨fields.map (fun f => (f.1.toList, QVariant.string f.2.toList))⟩

/-! ## parseXmlFile -/

/-- A token of `QXmlStreamReader`, one constructor for each `TokenType`. -/
inductive Token where
  | noToken
  | invalid
  | startDocument
  | endDocument
  | startElement (name : QString)
  | endElement (name : QString)
  | characters (text : QString)
  | comment (text : QString)
  | dtd (text : QString)
  | entityReference (name text : QString)
  | processingInstruction (target data : QString)
  deriving DecidableEq, Repr

/-- The function `QXmlStreamReader::name`: the local name of a start element, an end
element or an entity reference, empty for every other token. -/
def Token.name : Token → QString
  | .startElement name => name
  | .endElement name => name
  | .entityReference name _ => name
  | _ => []

/-- The function `QXmlStreamReader::text`: the text of characters, a comment, a DTD or an
entity reference, empty for every other token. -/
def Token.text : Token → QString
  | .characters text => text
  | .comment text => text
  | .dtd text => text
  | .entityReference _ text => text
  | _ => []

/-- The function `QXmlStreamReader::isStartElement`. -/
def Token.isStartElement : Token → Bool
  | .startElement _ => true
  | _ => false

/-- The function `QXmlStreamReader::isCharacters`. -/
def Token.isCharacters : Token → Bool
  | .characters _ => true
  | _ => false

/-- The local variables of `parseXmlFile`. -/
structure Locals where
  readingMessage : Bool
  elementValues : QVariantMap
  currentElementName : QString
  deriving DecidableEq, Repr

/-- The locals at the start of `parseXmlFile` (lines 78 to 80). -/
def Locals.init : Locals := ⟨false, QVariantMap.clear, []⟩

/-- One iteration of the loop of `parseXmlFile` (lines 97 to 141) on the token that
`readNext()` returned. The method called at the end of a message is a parameter; the
program calls `createGraphic`. -/
def parseStep {σ ε : Type} (createGraphic : QVariantMap → σ → Except ε σ)
    (st : Locals × σ) (tok : Token) : Except ε (Locals × σ) :=
  let loc := st.1
  -- Is this the start or end of a message element?
  if tok.name = MESSAGE then
    if !loc.readingMessage then
      -- This is the start of a message element.
      pure ({ loc with elementValues := QVariantMap.clear,
                       readingMessage := !loc.readingMessage }, st.2)
    else do
      let self ← createGraphic loc.elementValues st.2
      pure ({ loc with readingMessage := !loc.readingMessage }, self)
  -- Are we already inside a message element?
  else if loc.readingMessage then
    if tok.isStartElement then
      pure ({ loc with currentElementName := tok.name }, st.2)
    else if tok.isCharacters then
      if !loc.currentElementName.isEmpty then
        let trimmedText := QString.trimmed tok.text
        if !trimmedText.isEmpty then
          pure ({ loc with elementValues :=
                    loc.elementValues.insert loc.currentElementName (QVariant.string trimmedText) },
                st.2)
        else pure st
      else pure st
    else pure st
  else pure st

/-- The loop of `parseXmlFile` over the tokens read until `atEnd()`. -/
def parseLoop {σ ε : Type} (createGraphic : QVariantMap → σ → Except ε σ)
    (tokens : List Token) (st : Locals × σ) : Except ε (Locals × σ) :=
  tokens.foldlM (parseStep createGraphic) st

/-- The method `parseXmlFile` with the method it calls at the end of a message as a
parameter: the member state after the tokens have been read. -/
def parseXmlFileWith {σ ε : Type} (createGraphic : QVariantMap → σ → Except ε σ)
    (tokens : List Token) (self : σ) : Except ε σ :=
  (parseLoop createGraphic tokens (Locals.init, self)).map Prod.snd

/-- The method `parseXmlFile`. -/
def parseXmlFile {R : Type} [LinearOrder R] (toDouble : QString → R)
    (tokens : List Token) (self : Renderer R) : Except Fault (Renderer R) :=
  parseXmlFileWith (createGraphic toDouble) tokens self

/-! ## The message records, as the specification describes them -/

/-- The specification's rule for one token inside a message, on the working record and the
active field name: a start tag becomes the active field; text whose trimmed form is not
empty is stored under the active field when there is one; every other token is ignored. -/
def storeToken (acc : QVariantMap × QString) : Token → QVariantMap × QString
  | .startElement name => (acc.1, name)
  | .characters text =>
    if acc.2 ≠ [] ∧ QString.trimmed text ≠ [] then
      (acc.1.insert acc.2 (QVariant.string (QString.trimmed text)), acc.2)
    else acc
  | _ => acc

/-- The record accumulated from the tokens between the tags of one message, and the active
field name at its end tag, given the active field name at its start tag. -/
def messageRecord (cursor : QString) (body : List Token) : QVariantMap × QString :=
  body.foldl storeToken (QVariantMap.clear, cursor)

/-- The records of consecutive messages, in document order. -/
def messageRecords (cursor : QString) : List (List Token) → List QVariantMap
  | [] => []
  | body :: rest =>
    (messageRecord cursor body).1 :: messageRecords (messageRecord cursor body).2 rest

/-- A complete message element in a token stream: the tokens that precede its start tag
(outside every message) and the tokens between its start tag and its end tag. -/
structure Message where
  gap : List Token
  body : List Token
  deriving DecidableEq, Repr

/-- The tokens of a message, with those that precede it. -/
def Message.tokens (m : Message) : List Token :=
  m.gap ++ Token.startElement MESSAGE :: (m.body ++ [Token.endElement MESSAGE])

/-- The start tag and the content read so far of a message whose end tag never arrives. -/
def unterminatedTokens : Option (List Token) → List Token
  | .none => []
  | some body => Token.startElement MESSAGE :: body

/-- A token stream made of complete messages, the tokens that follow the last of them, and
possibly a message whose end tag never arrives. -/
def document (messages : List Message) (rest : List Token)
    (unterminated : Option (List Token)) : List Token :=
  (messages.map Message.tokens).flatten ++ (rest ++ unterminatedTokens unterminated)

/-- No token of the list is named `message`. -/
def noMessageTag (tokens : List Token) : Prop :=
  ∀ tok ∈ tokens, tok.name ≠ MESSAGE

/-- No token of the list is a start tag. -/
def noStartTag (tokens : List Token) : Prop :=
  ∀ tok ∈ tokens, tok.isStartElement = false

instance (tokens : List Token) : Decidable (noMessageTag tokens) := by
  unfold noMessageTag
  infer_instance

/-- No token of the list starts a child element of a message: a start tag that is not
named `message` is read only outside a message. The flag tells whether the first token is
read inside a message; each tag named `message` switches sides. -/
def noChildStartInside : Bool → List Token → Bool
  | _, [] => true
  | inside, tok :: rest =>
    if tok.name = MESSAGE then noChildStartInside (!inside) rest
    else (!inside || !tok.isStartElement) && noChildStartInside inside rest

instance (tokens : List Token) : Decidable (noStartTag tokens) := by
  unfold noStartTag
  infer_instance

/-- The call log: a stand-in for `createGraphic` that records its argument. -/
def logCall (rawAttributes : QVariantMap) (log : List QVariantMap) :
    Except Fault (List QVariantMap) :=
  pure (log ++ [rawAttributes])

/-- A character token. -/
def chars (s : String) : Token := Token.characters s.toList

/-- A start tag. -/
def startTag (s : String) : Token := Token.startElement s.toList

/-- An end tag. -/
def endTag (s : String) : Token := Token.endElement s.toList

/-! ## Specification-side descriptions used by the statements -/

/-- The point that a pair string contributes to a multipoint, as the specification words
it: a pair with at least two comma-separated tokens gives the point of its first two
tokens, a pair with fewer tokens gives none. -/
def pairPoint {R : Type} (toDouble : QString → R) (pointString : QString) : Option (R × R) :=
  match QString.split ',' pointString with
  | c0 :: c1 :: _ => some (toDouble c0, toDouble c1)
  | _ => none

/-- The union of a list of extents: the first one seeds the accumulator, each later one is
united with it. -/
def unionAll {R : Type} [LinearOrder R] (extents : List (Envelope R)) : Envelope R :=
  extents.foldl GeometryEngine.unionOf Envelope.empty

/-- The graphic that a record yields, if its geometry is built and is not empty: the
geometry with the record's fields other than the two reserved ones. -/
def graphicOf {R : Type} (toDouble : QString → R) (rawAttributes : QVariantMap) :
    Option (Graphic R) :=
  match buildGeometry toDouble rawAttributes with
  | .ok geom =>
    if geom.isEmpty then Option.none
    else some ⟨geom, ((rawAttributes.touch FIELD_CONTROL_POINTS).remove
      FIELD_CONTROL_POINTS).remove FIELD_WKID⟩
  | .error _ => Option.none

/-- A sequence of `createGraphic` calls, one for each record, in order. -/
def createGraphics {R : Type} [LinearOrder R] (toDouble : QString → R)
    (records : List QVariantMap) (self : Renderer R) : Except Fault (Renderer R) :=
  records.foldlM (fun s rawAttributes => createGraphic toDouble rawAttributes s) self

end GraphicsOverlayDictionaryRenderer

namespace GraphicsOverlayDictionaryRenderer

/-! ## Lemmas on strings -/

theorem split_ne_nil (sep : Char) (s : QString) : QString.split sep s ≠ [] := by
  induction s with
  | nil => simp [QString.split]
  | cons c cs ih =>
    unfold QString.split
    split
    · simp
    · split <;> simp

theorem split_of_not_mem (sep : Char) (s : QString) (h : sep ∉ s) :
    QString.split sep s = [s] := by
  induction s with
  | nil => rfl
  | cons c cs ih =>
    have hc : c ≠ sep := fun e => h (by simp [e])
    have hcs : sep ∉ cs := fun e => h (by simp [e])
    simp [QString.split, hc, ih hcs]

theorem split_nil (sep : Char) : QString.split sep [] = [[]] := rfl

theorem at_zero (s : QString) (rest : List QString) :
    QStringList.at (s :: rest) 0 = .ok s := rfl

theorem at_one (s t : QString) (rest : List QString) :
    QStringList.at (s :: t :: rest) 1 = .ok t := rfl

theorem at_one_singleton (s : QString) :
    QStringList.at [s] 1 = .error Fault.indexOutOfRange := rfl

/-! ## Lemmas on variant maps -/

theorem find_filter_self (key : QString) (es : List (QString × QVariant)) :
    (es.filter (fun e => decide (e.1 ≠ key))).find? (fun e => decide (e.1 = key)) = none := by
  induction es with
  | nil => rfl
  | cons e es ih =>
    by_cases h : e.1 = key
    · rw [List.filter_cons_of_neg (by simpa using h)]
      exact ih
    · rw [List.filter_cons_of_pos (by simpa using h),
        List.find?_cons_of_neg _ (by simpa using h)]
      exact ih

theorem find_filter_ne (key other : QString) (h : other ≠ key)
    (es : List (QString × QVariant)) :
    (es.filter (fun e => decide (e.1 ≠ key))).find? (fun e => decide (e.1 = other)) =
      es.find? (fun e => decide (e.1 = other)) := by
  induction es with
  | nil => rfl
  | cons e es ih =>
    by_cases h1 : e.1 = key
    · have h2 : e.1 ≠ other := fun e2 => h (e2.symm.trans h1)
      rw [List.filter_cons_of_neg (by simpa using h1),
        List.find?_cons_of_neg _ (by simpa using h2)]
      exact ih
    · rw [List.filter_cons_of_pos (by simpa using h1)]
      by_cases h2 : e.1 = other
      · rw [List.find?_cons_of_pos _ (by simpa using h2),
          List.find?_cons_of_pos _ (by simpa using h2)]
      · rw [List.find?_cons_of_neg _ (by simpa using h2),
          List.find?_cons_of_neg _ (by simpa using h2)]
        exact ih

theorem find_insertEntry_self (key : QString) (v : QVariant) (es : List (QString × QVariant)) :
    (QVariantMap.insertEntry key v es).find? (fun e => decide (e.1 = key)) = some (key, v) := by
  induction es with
  | nil => simp [QVariantMap.insertEntry]
  | cons e es ih =>
    by_cases h : e.1 = key
    · simp [QVariantMap.insertEntry, h]
    · rw [QVariantMap.insertEntry, if_neg h, List.find?_cons_of_neg _ (by simpa using h)]
      exact ih

theorem find_insertEntry_ne (key other : QString) (h : other ≠ key) (v : QVariant)
    (es : List (QString × QVariant)) :
    (QVariantMap.insertEntry key v es).find? (fun e => decide (e.1 = other)) =
      es.find? (fun e => decide (e.1 = other)) := by
  induction es with
  | nil => simp [QVariantMap.insertEntry, h.symm]
  | cons e es ih =>
    by_cases h1 : e.1 = key
    · have h2 : e.1 ≠ other := fun e2 => h (e2.symm.trans h1)
      rw [QVariantMap.insertEntry, if_pos h1, List.find?_cons_of_neg _ (by simpa using h.symm),
        List.find?_cons_of_neg _ (by simpa using h2)]
    · rw [QVariantMap.insertEntry, if_neg h1]
      by_cases h2 : e.1 = other
      · rw [List.find?_cons_of_pos _ (by simpa using h2),
          List.find?_cons_of_pos _ (by simpa using h2)]
      · rw [List.find?_cons_of_neg _ (by simpa using h2),
          List.find?_cons_of_neg _ (by simpa using h2)]
        exact ih

theorem find_remove_self (m : QVariantMap) (key : QString) : (m.remove key).find key = none := by
  unfold QVariantMap.remove QVariantMap.find
  rw [find_filter_self]
  rfl

theorem find_remove_ne (m : QVariantMap) (key other : QString) (h : other ≠ key) :
    (m.remove key).find other = m.find other := by
  unfold QVariantMap.remove QVariantMap.find
  rw [find_filter_ne key other h]

theorem find_insert_self (m : QVariantMap) (key : QString) (v : QVariant) :
    (m.insert key v).find key = some v := by
  unfold QVariantMap.insert QVariantMap.find
  rw [find_insertEntry_self]
  rfl

theorem find_insert_ne (m : QVariantMap) (key other : QString) (h : other ≠ key) (v : QVariant) :
    (m.insert key v).find other = m.find other := by
  unfold QVariantMap.insert QVariantMap.find
  rw [find_insertEntry_ne key other h]

theorem find_touch_ne (m : QVariantMap) (key other : QString) (h : other ≠ key) :
    (m.touch key).find other = m.find other := by
  unfold QVariantMap.touch
  split
  · rfl
  · exact find_insert_ne m key other h _

theorem keys_contains_eq (m : QVariantMap) (key : QString) :
    m.keys.contains key = (m.find key).isSome := by
  obtain ⟨es⟩ := m
  unfold QVariantMap.keys QVariantMap.find
  induction es with
  | nil => rfl
  | cons e es ih =>
    rw [List.map_cons, List.contains, List.elem_cons]
    by_cases h : e.1 = key
    · rw [List.find?_cons_of_pos _ (by simpa using h), h, beq_self_eq_true key]
      rfl
    · have h2 : ¬ key = e.1 := fun e2 => h e2.symm
      rw [List.find?_cons_of_neg _ (by simpa using h), beq_false_of_ne h2, ← ih]

/-! ## Lemmas on createGraphic -/

theorem createGraphic_of_geometry {R : Type} [LinearOrder R] (toDouble : QString → R)
    (rawAttributes : QVariantMap) (self : Renderer R) (geom : Geometry R)
    (h : buildGeometry toDouble rawAttributes = .ok geom) :
    createGraphic toDouble rawAttributes self =
      .ok (appendGraphic geom (rawAttributes.touch FIELD_CONTROL_POINTS) self) := by
  unfold createGraphic
  rw [h]
  rfl

theorem createGraphic_of_fault {R : Type} [LinearOrder R] (toDouble : QString → R)
    (rawAttributes : QVariantMap) (self : Renderer R) (e : Fault)
    (h : buildGeometry toDouble rawAttributes = .error e) :
    createGraphic toDouble rawAttributes self = .error e := by
  unfold createGraphic
  rw [h]
  rfl

theorem bbox_update {R : Type} [LinearOrder R] (bbox extent : Envelope R) :
    (if bbox.isEmpty then extent else (GeometryEngine.unionOf bbox.extent extent).extent) =
      GeometryEngine.unionOf bbox extent := by
  cases bbox <;> cases extent <;> rfl

theorem appendGraphic_of_nonempty {R : Type} [LinearOrder R] (geom : Geometry R)
    (attributes : QVariantMap) (self : Renderer R) (h : geom.isEmpty = false) :
    appendGraphic geom attributes self =
      { graphics := self.graphics ++
          [⟨geom, (attributes.remove FIELD_CONTROL_POINTS).remove FIELD_WKID⟩]
        m_bbox := GeometryEngine.unionOf self.m_bbox geom.extent } := by
  unfold appendGraphic
  simp only [h, Bool.not_false, if_true, bbox_update]

theorem appendGraphic_of_empty {R : Type} [LinearOrder R] (geom : Geometry R)
    (attributes : QVariantMap) (self : Renderer R) (h : geom.isEmpty = true) :
    appendGraphic geom attributes self = self := by
  unfold appendGraphic
  simp [h]

theorem buildGeometry_point {R : Type} (toDouble : QString → R) (rawAttributes : QVariantMap)
    (c0 c1 : QString) (more : List QString)
    (hsemi : ';' ∉ (rawAttributes.value FIELD_CONTROL_POINTS).toString)
    (htok : QString.split ',' (rawAttributes.value FIELD_CONTROL_POINTS).toString =
      c0 :: c1 :: more) :
    buildGeometry toDouble rawAttributes =
      .ok (Geometry.point (toDouble c0) (toDouble c1) (resolveWkid rawAttributes)) := by
  unfold buildGeometry
  simp only [split_of_not_mem _ _ hsemi, List.length_singleton, if_true, at_zero]
  show (do
    let c0 ← QStringList.at
      (QString.split ',' (rawAttributes.value FIELD_CONTROL_POINTS).toString) 0
    let c1 ← QStringList.at
      (QString.split ',' (rawAttributes.value FIELD_CONTROL_POINTS).toString) 1
    pure (Geometry.point (toDouble c0) (toDouble c1) (resolveWkid rawAttributes))) = _
  rw [htok]
  rfl

theorem buildGeometry_one_token {R : Type} (toDouble : QString → R)
    (rawAttributes : QVariantMap) (c0 : QString)
    (hsemi : ';' ∉ (rawAttributes.value FIELD_CONTROL_POINTS).toString)
    (htok : QString.split ',' (rawAttributes.value FIELD_CONTROL_POINTS).toString = [c0]) :
    buildGeometry toDouble rawAttributes = .error Fault.indexOutOfRange := by
  unfold buildGeometry
  simp only [split_of_not_mem _ _ hsemi, List.length_singleton, if_true, at_zero]
  show (do
    let c0 ← QStringList.at
      (QString.split ',' (rawAttributes.value FIELD_CONTROL_POINTS).toString) 0
    let c1 ← QStringList.at
      (QString.split ',' (rawAttributes.value FIELD_CONTROL_POINTS).toString) 1
    pure (Geometry.point (toDouble c0) (toDouble c1) (resolveWkid rawAttributes))) = _
  rw [htok]
  rfl

theorem addPointString_eq {R : Type} (toDouble : QString → R) (collection : List (R × R))
    (pointString : QString) :
    addPointString toDouble collection pointString =
      .ok (collection ++ (pairPoint toDouble pointString).toList) := by
  unfold addPointString pairPoint
  rcases hs : QString.split ',' pointString with _ | ⟨c0, _ | ⟨c1, more⟩⟩
  · simp
    rfl
  · simp
    rfl
  · simp
    rfl

theorem foldlM_addPointString {R : Type} (toDouble : QString → R)
    (pointStrings : List QString) (collection : List (R × R)) :
    pointStrings.foldlM (addPointString toDouble) collection =
      .ok (collection ++ pointStrings.filterMap (pairPoint toDouble)) := by
  induction pointStrings generalizing collection with
  | nil => simp [pure, Except.pure]
  | cons p ps ih =>
    rw [List.foldlM_cons, addPointString_eq]
    show ps.foldlM (addPointString toDouble) _ = _
    rw [ih]
    cases h : pairPoint toDouble p <;> simp [List.filterMap_cons, h]

theorem buildGeometry_multi {R : Type} (toDouble : QString → R) (rawAttributes : QVariantMap)
    (h : (QString.split ';' (rawAttributes.value FIELD_CONTROL_POINTS).toString).length ≠ 1) :
    buildGeometry toDouble rawAttributes =
      .ok (Geometry.multipoint
        ((QString.split ';' (rawAttributes.value FIELD_CONTROL_POINTS).toString).filterMap
          (pairPoint toDouble)) (resolveWkid rawAttributes)) := by
  unfold buildGeometry
  simp only [h, if_false, foldlM_addPointString, List.nil_append]
  rfl

theorem pairPoint_isSome {R : Type} (toDouble : QString → R) (pointString : QString) :
    (pairPoint toDouble pointString).isSome = decide (2 ≤ (QString.split ',' pointString).length) := by
  unfold pairPoint
  rcases QString.split ',' pointString with _ | ⟨c0, _ | ⟨c1, more⟩⟩ <;> simp

theorem filterMap_of_all_some {α β : Type} (f : α → Option β) (l : List α)
    (h : ∀ a ∈ l, (f a).isSome = true) :
    (l.filterMap f).length = l.length ∧ l.map f = (l.filterMap f).map some := by
  induction l with
  | nil => simp
  | cons a l ih =>
    have ha := h a (by simp)
    obtain ⟨b, hb⟩ := Option.isSome_iff_exists.mp ha
    have ih2 := ih (fun x hx => h x (by simp [hx]))
    simp [List.filterMap_cons, hb, ih2.1, ih2.2]

/-! ## Lemmas on extents -/

theorem contains_refl {R : Type} [LinearOrder R] (a : Envelope R) : a.contains a := by
  cases a with
  | empty => trivial
  | rect x0 y0 x1 y1 => exact ⟨le_refl _, le_refl _, le_refl _, le_refl _⟩

theorem contains_trans {R : Type} [LinearOrder R] (a b c : Envelope R)
    (hab : a.contains b) (hbc : b.contains c) : a.contains c := by
  cases c with
  | empty => cases a <;> trivial
  | rect u0 v0 u1 v1 =>
    cases b with
    | empty => exact hbc.elim
    | rect p0 q0 p1 q1 =>
      cases a with
      | empty => exact hab.elim
      | rect x0 y0 x1 y1 =>
        obtain ⟨h1, h2, h3, h4⟩ := hab
        obtain ⟨k1, k2, k3, k4⟩ := hbc
        exact ⟨le_trans h1 k1, le_trans h2 k2, le_trans k3 h3, le_trans k4 h4⟩

theorem unionOf_empty_right {R : Type} [LinearOrder R] (a : Envelope R) :
    GeometryEngine.unionOf a Envelope.empty = a := by
  cases a <;> rfl

theorem unionOf_empty_left {R : Type} [LinearOrder R] (b : Envelope R) :
    GeometryEngine.unionOf Envelope.empty b = b := by
  cases b <;> rfl

theorem contains_unionOf_left {R : Type} [LinearOrder R] (a b : Envelope R) :
    (GeometryEngine.unionOf a b).contains a := by
  cases a with
  | empty => cases b <;> trivial
  | rect x0 y0 x1 y1 =>
    cases b with
    | empty => exact contains_refl _
    | rect u0 v0 u1 v1 =>
      exact ⟨min_le_left _ _, min_le_left _ _, le_max_left _ _, le_max_left _ _⟩

theorem contains_unionOf_right {R : Type} [LinearOrder R] (a b : Envelope R) :
    (GeometryEngine.unionOf a b).contains b := by
  cases b with
  | empty => cases a <;> trivial
  | rect u0 v0 u1 v1 =>
    cases a with
    | empty => exact contains_refl _
    | rect x0 y0 x1 y1 =>
      exact ⟨min_le_right _ _, min_le_right _ _, le_max_right _ _, le_max_right _ _⟩

theorem contains_unionOf_of_contains {R : Type} [LinearOrder R] (e a b : Envelope R)
    (ha : e.contains a) (hb : e.contains b) : e.contains (GeometryEngine.unionOf a b) := by
  cases a with
  | empty =>
    rw [unionOf_empty_left]
    exact hb
  | rect x0 y0 x1 y1 =>
    cases b with
    | empty => exact ha
    | rect u0 v0 u1 v1 =>
      cases e with
      | empty => exact ha.elim
      | rect p0 q0 p1 q1 =>
        obtain ⟨h1, h2, h3, h4⟩ := ha
        obtain ⟨k1, k2, k3, k4⟩ := hb
        exact ⟨le_min h1 k1, le_min h2 k2, max_le h3 k3, max_le h4 k4⟩

theorem foldl_unionOf_contains {R : Type} [LinearOrder R] (extents : List (Envelope R))
    (acc : Envelope R) :
    (extents.foldl GeometryEngine.unionOf acc).contains acc ∧
      ∀ x ∈ extents, (extents.foldl GeometryEngine.unionOf acc).contains x := by
  induction extents generalizing acc with
  | nil => exact ⟨contains_refl _, fun x hx => by cases hx⟩
  | cons e es ih =>
    obtain ⟨h1, h2⟩ := ih (GeometryEngine.unionOf acc e)
    refine ⟨contains_trans _ _ _ h1 (contains_unionOf_left acc e), fun x hx => ?_⟩
    rcases List.mem_cons.mp hx with hx | hx
    · rw [hx]
      exact contains_trans _ _ _ h1 (contains_unionOf_right acc e)
    · exact h2 x hx

theorem foldl_unionOf_least {R : Type} [LinearOrder R] (extents : List (Envelope R))
    (acc bound : Envelope R) (hacc : bound.contains acc)
    (hall : ∀ x ∈ extents, bound.contains x) :
    bound.contains (extents.foldl GeometryEngine.unionOf acc) := by
  induction extents generalizing acc with
  | nil => exact hacc
  | cons e es ih =>
    exact ih _ (contains_unionOf_of_contains _ _ _ hacc (hall e (by simp)))
      (fun x hx => hall x (by simp [hx]))

/-! ## Lemmas on sequences of createGraphic calls -/

theorem createGraphic_ok {R : Type} [LinearOrder R] (toDouble : QString → R)
    (rawAttributes : QVariantMap) (self final : Renderer R)
    (h : createGraphic toDouble rawAttributes self = .ok final) :
    final.graphics = self.graphics ++ (graphicOf toDouble rawAttributes).toList ∧
      final.m_bbox = ((graphicOf toDouble rawAttributes).toList.map
        (fun g => g.geometry.extent)).foldl GeometryEngine.unionOf self.m_bbox := by
  cases hg : buildGeometry toDouble rawAttributes with
  | error e =>
    rw [createGraphic_of_fault toDouble rawAttributes self e hg] at h
    cases h
  | ok geom =>
    rw [createGraphic_of_geometry toDouble rawAttributes self geom hg] at h
    injection h with h
    subst h
    unfold graphicOf
    rw [hg]
    cases he : geom.isEmpty with
    | true => simp [appendGraphic_of_empty _ _ _ he, he]
    | false => simp [appendGraphic_of_nonempty _ _ _ he, he]

theorem createGraphics_ok {R : Type} [LinearOrder R] (toDouble : QString → R)
    (records : List QVariantMap) (self final : Renderer R)
    (h : createGraphics toDouble records self = .ok final) :
    final.graphics = self.graphics ++ records.filterMap (graphicOf toDouble) ∧
      final.m_bbox = ((records.filterMap (graphicOf toDouble)).map
        (fun g => g.geometry.extent)).foldl GeometryEngine.unionOf self.m_bbox := by
  induction records generalizing self with
  | nil =>
    injection h with h
    subst h
    simp
  | cons r rs ih =>
    unfold createGraphics at h
    rw [List.foldlM_cons] at h
    cases hr : createGraphic toDouble r self with
    | error e =>
      rw [hr] at h
      cases h
    | ok mid =>
      rw [hr] at h
      obtain ⟨h1, h2⟩ := createGraphic_ok toDouble r self mid hr
      obtain ⟨k1, k2⟩ := ih mid h
      rw [k1, k2, h1, h2]
      cases hg : graphicOf toDouble r <;> simp [List.filterMap_cons, hg]

theorem createGraphics_cons {R : Type} [LinearOrder R] (toDouble : QString → R)
    (r : QVariantMap) (records : List QVariantMap) (self mid : Renderer R)
    (h : createGraphic toDouble r self = .ok mid) :
    createGraphics toDouble (r :: records) self = createGraphics toDouble records mid := by
  unfold createGraphics
  rw [List.foldlM_cons, h]
  rfl

theorem createGraphics_completes {R : Type} [LinearOrder R] (toDouble : QString → R)
    (records : List QVariantMap) (self : Renderer R)
    (h : ∀ r ∈ records, ∃ geom, buildGeometry toDouble r = .ok geom) :
    ∃ final, createGraphics toDouble records self = .ok final := by
  induction records generalizing self with
  | nil => exact ⟨self, rfl⟩
  | cons r rs ih =>
    obtain ⟨geom, hg⟩ := h r (by simp)
    obtain ⟨final, hf⟩ := ih (appendGraphic geom (r.touch FIELD_CONTROL_POINTS) self)
      (fun x hx => h x (by simp [hx]))
    refine ⟨final, ?_⟩
    unfold createGraphics
    rw [List.foldlM_cons, createGraphic_of_geometry toDouble r self geom hg]
    exact hf

/-! ## Lemmas on parseXmlFile -/

theorem trimmed_of_all_space (text : QString) (h : ∀ c ∈ text, QChar.isSpace c = true) :
    QString.trimmed text = [] := by
  unfold QString.trimmed
  have h1 : text.dropWhile QChar.isSpace = [] := List.dropWhile_eq_nil_iff.mpr h
  rw [h1]
  rfl

theorem parseStep_outside {σ ε : Type} (cb : QVariantMap → σ → Except ε σ) (loc : Locals)
    (self : σ) (tok : Token) (hout : loc.readingMessage = false) (htok : tok.name ≠ MESSAGE) :
    parseStep cb (loc, self) tok = .ok (loc, self) := by
  unfold parseStep
  simp only [htok, hout, if_false]
  rfl

theorem parseStep_open {σ ε : Type} (cb : QVariantMap → σ → Except ε σ) (loc : Locals)
    (self : σ) (tok : Token) (hout : loc.readingMessage = false) (htok : tok.name = MESSAGE) :
    parseStep cb (loc, self) tok =
      .ok (⟨true, QVariantMap.clear, loc.currentElementName⟩, self) := by
  unfold parseStep
  simp only [htok, hout, if_true, Bool.not_false]
  rfl

theorem parseStep_close {σ ε : Type} (cb : QVariantMap → σ → Except ε σ) (loc : Locals)
    (self : σ) (tok : Token) (hin : loc.readingMessage = true) (htok : tok.name = MESSAGE) :
    parseStep cb (loc, self) tok =
      (cb loc.elementValues self).map
        (fun s => (⟨false, loc.elementValues, loc.currentElementName⟩, s)) := by
  unfold parseStep
  simp only [htok, hin, if_true, Bool.not_true, if_false]
  cases cb loc.elementValues self <;> rfl

theorem parseStep_inside {σ ε : Type} (cb : QVariantMap → σ → Except ε σ) (loc : Locals)
    (self : σ) (tok : Token) (hin : loc.readingMessage = true) (htok : tok.name ≠ MESSAGE) :
    parseStep cb (loc, self) tok =
      .ok (⟨true, (storeToken (loc.elementValues, loc.currentElementName) tok).1,
        (storeToken (loc.elementValues, loc.currentElementName) tok).2⟩, self) := by
  obtain ⟨reading, values, current⟩ := loc
  simp only at hin
  subst hin
  unfold parseStep
  simp only [htok, if_false, if_true]
  cases tok with
  | startElement name => rfl
  | characters text =>
    simp only [Token.isStartElement, Token.isCharacters, Token.text, storeToken, if_true]
    by_cases h1 : current = []
    · simp [h1]
      rfl
    · by_cases h2 : QString.trimmed text = []
      · simp [h1, h2]
        rfl
      · simp [h1, h2]
        rfl
  | _ => rfl

theorem parseLoop_nil {σ ε : Type} (cb : QVariantMap → σ → Except ε σ) (st : Locals × σ) :
    parseLoop cb [] st = .ok st := rfl

theorem parseLoop_cons {σ ε : Type} (cb : QVariantMap → σ → Except ε σ) (tok : Token)
    (tokens : List Token) (st : Locals × σ) :
    parseLoop cb (tok :: tokens) st = parseStep cb st tok >>= parseLoop cb tokens := by
  unfold parseLoop
  rw [List.foldlM_cons]

theorem parseLoop_append {σ ε : Type} (cb : QVariantMap → σ → Except ε σ)
    (front back : List Token) (st : Locals × σ) :
    parseLoop cb (front ++ back) st = parseLoop cb front st >>= parseLoop cb back := by
  unfold parseLoop
  rw [List.foldlM_append]

theorem parseLoop_append_ok {σ ε : Type} (cb : QVariantMap → σ → Except ε σ)
    (front back : List Token) (st mid : Locals × σ) (h : parseLoop cb front st = .ok mid) :
    parseLoop cb (front ++ back) st = parseLoop cb back mid := by
  rw [parseLoop_append, h]
  rfl

theorem parseLoop_outside {σ ε : Type} (cb : QVariantMap → σ → Except ε σ)
    (tokens : List Token) (loc : Locals) (self : σ) (hout : loc.readingMessage = false)
    (htok : noMessageTag tokens) :
    parseLoop cb tokens (loc, self) = .ok (loc, self) := by
  induction tokens with
  | nil => rfl
  | cons tok tokens ih =>
    rw [parseLoop_cons, parseStep_outside cb loc self tok hout (htok tok (by simp))]
    exact ih (fun t ht => htok t (by simp [ht]))

theorem parseLoop_inside {σ ε : Type} (cb : QVariantMap → σ → Except ε σ)
    (tokens : List Token) (values : QVariantMap) (current : QString) (self : σ)
    (htok : noMessageTag tokens) :
    parseLoop cb tokens (⟨true, values, current⟩, self) =
      .ok (⟨true, (tokens.foldl storeToken (values, current)).1,
        (tokens.foldl storeToken (values, current)).2⟩, self) := by
  induction tokens generalizing values current with
  | nil => rfl
  | cons tok tokens ih =>
    rw [parseLoop_cons, parseStep_inside cb _ self tok rfl (htok tok (by simp))]
    exact ih _ _ (fun t ht => htok t (by simp [ht]))

theorem parseLoop_message {σ ε : Type} (cb : QVariantMap → σ → Except ε σ) (m : Message)
    (loc : Locals) (self : σ) (hout : loc.readingMessage = false)
    (hgap : noMessageTag m.gap) (hbody : noMessageTag m.body) :
    parseLoop cb m.tokens (loc, self) =
      (cb (messageRecord loc.currentElementName m.body).1 self).map
        (fun s => (⟨false, (messageRecord loc.currentElementName m.body).1,
          (messageRecord loc.currentElementName m.body).2⟩, s)) := by
  unfold Message.tokens
  rw [parseLoop_append_ok cb _ _ _ _ (parseLoop_outside cb m.gap loc self hout hgap),
    parseLoop_cons, parseStep_open cb loc self (Token.startElement MESSAGE) hout rfl]
  show parseLoop cb (m.body ++ [Token.endElement MESSAGE]) _ = _
  rw [parseLoop_append_ok cb _ _ _ _ (parseLoop_inside cb m.body _ _ self hbody),
    parseLoop_cons, parseStep_close cb _ self (Token.endElement MESSAGE) rfl rfl]
  unfold messageRecord
  cases cb (List.foldl storeToken (QVariantMap.clear, loc.currentElementName) m.body).1 self <;> rfl

theorem parseLoop_tail {σ ε : Type} (cb : QVariantMap → σ → Except ε σ) (rest : List Token)
    (unterminated : Option (List Token)) (loc : Locals) (self : σ)
    (hout : loc.readingMessage = false) (hrest : noMessageTag rest)
    (hunt : ∀ body, unterminated = some body → noMessageTag body) :
    (parseLoop cb (rest ++ unterminatedTokens unterminated) (loc, self)).map Prod.snd =
      .ok self := by
  rw [parseLoop_append_ok cb _ _ _ _ (parseLoop_outside cb rest loc self hout hrest)]
  cases unterminated with
  | none => rfl
  | some body =>
    unfold unterminatedTokens
    rw [parseLoop_cons, parseStep_open cb loc self (Token.startElement MESSAGE) hout rfl]
    show (parseLoop cb body _).map Prod.snd = _
    rw [parseLoop_inside cb body _ _ self (hunt body rfl)]
    rfl

theorem parseLoop_document {σ ε : Type} (cb : QVariantMap → σ → Except ε σ)
    (messages : List Message) (rest : List Token) (unterminated : Option (List Token))
    (loc : Locals) (self : σ) (hout : loc.readingMessage = false)
    (hgap : ∀ m ∈ messages, noMessageTag m.gap) (hbody : ∀ m ∈ messages, noMessageTag m.body)
    (hrest : noMessageTag rest)
    (hunt : ∀ body, unterminated = some body → noMessageTag body) :
    (parseLoop cb (document messages rest unterminated) (loc, self)).map Prod.snd =
      (messageRecords loc.currentElementName (messages.map Message.body)).foldlM
        (fun s r => cb r s) self := by
  induction messages generalizing loc self with
  | nil => exact parseLoop_tail cb rest unterminated loc self hout hrest hunt
  | cons m ms ih =>
    unfold document
    rw [List.map_cons, List.flatten_cons, List.append_assoc, parseLoop_append,
      parseLoop_message cb m loc self hout (hgap m (by simp)) (hbody m (by simp)),
      List.map_cons, messageRecords, List.foldlM_cons]
    cases cb (messageRecord loc.currentElementName m.body).1 self with
    | error e => rfl
    | ok s =>
      exact ih _ s rfl (fun x hx => hgap x (by simp [hx])) (fun x hx => hbody x (by simp [hx]))

theorem messageRecords_length (cursor : QString) (bodies : List (List Token)) :
    (messageRecords cursor bodies).length = bodies.length := by
  induction bodies generalizing cursor with
  | nil => rfl
  | cons body rest ih => simp [messageRecords, ih]

theorem storeToken_noStartTag (tokens : List Token) (values : QVariantMap) (current : QString)
    (h : noStartTag tokens) :
    (tokens.foldl storeToken (values, current)).2 = current ∧
      ∀ key, key ≠ current →
        (tokens.foldl storeToken (values, current)).1.find key = values.find key := by
  induction tokens generalizing values with
  | nil => exact ⟨rfl, fun _ _ => rfl⟩
  | cons tok tokens ih =>
    have htail : noStartTag tokens := fun t ht => h t (by simp [ht])
    have hstep : ∃ values2, storeToken (values, current) tok = (values2, current) ∧
        ∀ key, key ≠ current → values2.find key = values.find key := by
      cases tok with
      | startElement name =>
        exact absurd (h (Token.startElement name) (by simp)) (by simp [Token.isStartElement])
      | characters text =>
        by_cases hc : current ≠ [] ∧ QString.trimmed text ≠ []
        · refine ⟨values.insert current (QVariant.string (QString.trimmed text)), ?_,
            fun key hk => find_insert_ne _ _ _ hk _⟩
          show (if _ then _ else _) = _
          rw [if_pos hc]
        · refine ⟨values, ?_, fun _ _ => rfl⟩
          show (if _ then _ else _) = _
          rw [if_neg hc]
      | _ => exact ⟨values, rfl, fun _ _ => rfl⟩
    obtain ⟨values2, h1, h2⟩ := hstep
    rw [List.foldl_cons, h1]
    obtain ⟨k1, k2⟩ := ih values2 htail
    exact ⟨k1, fun key hk => (k2 key hk).trans (h2 key hk)⟩

theorem storeToken_cursor_after_start (front back : List Token) (name : QString)
    (values : QVariantMap) (current : QString) (h : noStartTag back) :
    ((front ++ Token.startElement name :: back).foldl storeToken (values, current)).2 = name := by
  rw [List.foldl_append, List.foldl_cons]
  exact (storeToken_noStartTag back _ name h).1

theorem noMessageTag_append (front back : List Token) (h1 : noMessageTag front)
    (h2 : noMessageTag back) : noMessageTag (front ++ back) := by
  intro tok htok
  rcases List.mem_append.mp htok with h | h
  · exact h1 tok h
  · exact h2 tok h

theorem noMessageTag_cons (tok : Token) (tokens : List Token) (h1 : tok.name ≠ MESSAGE)
    (h2 : noMessageTag tokens) : noMessageTag (tok :: tokens) := by
  intro t ht
  rcases List.mem_cons.mp ht with h | h
  · rw [h]
    exact h1
  · exact h2 t h

theorem storeToken_cursor_of_not_start (values : QVariantMap) (current : QString) (tok : Token)
    (h : tok.isStartElement = false) : (storeToken (values, current) tok).2 = current := by
  cases tok with
  | startElement name => exact absurd h (by simp [Token.isStartElement])
  | characters text =>
    show (if _ then _ else _ : QVariantMap × QString).2 = _
    split <;> rfl
  | _ => rfl

theorem parseStep_flag_cursor {σ ε : Type} (cb : QVariantMap → σ → Except ε σ)
    (st next : Locals × σ) (tok : Token) (h : parseStep cb st tok = .ok next) :
    next.1.readingMessage =
        (if tok.name = MESSAGE then !st.1.readingMessage else st.1.readingMessage) ∧
      ((tok.name ≠ MESSAGE → st.1.readingMessage = true → tok.isStartElement = false) →
        next.1.currentElementName = st.1.currentElementName) := by
  obtain ⟨loc, self⟩ := st
  by_cases hname : tok.name = MESSAGE
  · cases hin : loc.readingMessage with
    | false =>
      rw [parseStep_open cb loc self tok hin hname] at h
      injection h with h
      rw [← h]
      simp [hname, hin]
    | true =>
      rw [parseStep_close cb loc self tok hin hname] at h
      cases hcb : cb loc.elementValues self with
      | error e =>
        rw [hcb] at h
        cases h
      | ok s =>
        rw [hcb] at h
        injection h with h
        rw [← h]
        simp [hname, hin]
  · cases hin : loc.readingMessage with
    | false =>
      rw [parseStep_outside cb loc self tok hin hname] at h
      injection h with h
      rw [← h]
      simp [hname, hin]
    | true =>
      rw [parseStep_inside cb loc self tok hin hname] at h
      injection h with h
      rw [← h]
      refine ⟨by simp [hname, hin], fun hns => ?_⟩
      exact storeToken_cursor_of_not_start _ _ tok (hns hname rfl)

theorem parseLoop_cursor {σ ε : Type} (cb : QVariantMap → σ → Except ε σ) (tokens : List Token)
    (st final : Locals × σ) (htok : noChildStartInside st.1.readingMessage tokens = true)
    (h : parseLoop cb tokens st = .ok final) :
    final.1.currentElementName = st.1.currentElementName := by
  induction tokens generalizing st with
  | nil =>
    injection h with h
    rw [← h]
  | cons tok tokens ih =>
    rw [parseLoop_cons] at h
    cases hstep : parseStep cb st tok with
    | error e =>
      rw [hstep] at h
      cases h
    | ok next =>
      rw [hstep] at h
      obtain ⟨hflag, hcur⟩ := parseStep_flag_cursor cb st next tok hstep
      unfold noChildStartInside at htok
      by_cases hname : tok.name = MESSAGE
      · rw [if_pos hname] at htok
        rw [if_pos hname] at hflag
        rw [ih next (by rw [hflag]; exact htok) h]
        exact hcur (fun hne => absurd hname hne)
      · rw [if_neg hname] at htok
        rw [if_neg hname] at hflag
        have h1 := (Bool.and_eq_true _ _).mp htok
        rw [ih next (by rw [hflag]; exact h1.2) h]
        refine hcur (fun _ hin => ?_)
        have h2 := h1.1
        rw [hin] at h2
        simpa using h2

theorem split_length_of_mem (sep : Char) (s : QString) (h : sep ∈ s) :
    2 ≤ (QString.split sep s).length := by
  induction s with
  | nil => cases h
  | cons c cs ih =>
    unfold QString.split
    by_cases hc : c = sep
    · rw [if_pos hc, List.length_cons]
      have := List.length_pos.mpr (split_ne_nil sep cs)
      omega
    · rw [if_neg hc]
      have hcs : sep ∈ cs := by
        rcases List.mem_cons.mp h with h1 | h1
        · exact absurd h1.symm hc
        · exact h1
      have ih2 := ih hcs
      rcases hsplit : QString.split sep cs with _ | ⟨field, fields⟩
      · rw [hsplit] at ih2
        simp at ih2
      · rw [hsplit] at ih2
        simpa using ih2

theorem buildGeometry_completes {R : Type} (toDouble : QString → R) (rawAttributes : QVariantMap)
    (h : ';' ∈ (rawAttributes.value FIELD_CONTROL_POINTS).toString ∨
      2 ≤ (QString.split ',' (rawAttributes.value FIELD_CONTROL_POINTS).toString).length) :
    ∃ geom, buildGeometry toDouble rawAttributes = .ok geom := by
  by_cases hsemi : ';' ∈ (rawAttributes.value FIELD_CONTROL_POINTS).toString
  · have hlen := split_length_of_mem ';' _ hsemi
    exact ⟨_, buildGeometry_multi toDouble rawAttributes (by omega)⟩
  · rcases h with h | h
    · exact absurd h hsemi
    · rcases hsplit : QString.split ',' (rawAttributes.value FIELD_CONTROL_POINTS).toString
        with _ | ⟨c0, _ | ⟨c1, more⟩⟩
      · rw [hsplit] at h
        simp at h
      · rw [hsplit] at h
        simp at h
      · exact ⟨_, buildGeometry_point toDouble rawAttributes c0 c1 more hsemi hsplit⟩

theorem insertEntry_eq_self_iff (key : QString) (v : QVariant)
    (es : List (QString × QVariant)) :
    QVariantMap.insertEntry key v es = es ↔
      (es.find? (fun e => decide (e.1 = key))).map Prod.snd = some v := by
  constructor
  · intro h
    rw [← h, find_insertEntry_self]
    rfl
  · intro h
    induction es with
    | nil => cases h
    | cons e es ih =>
      by_cases hk : e.1 = key
      · rw [List.find?_cons_of_pos _ (by simpa using hk)] at h
        have hv : e.2 = v := by simpa using h
        rw [QVariantMap.insertEntry, if_pos hk, ← hk, ← hv]
      · rw [List.find?_cons_of_neg _ (by simpa using hk)] at h
        rw [QVariantMap.insertEntry, if_neg hk, ih h]

theorem insert_eq_self_iff (m : QVariantMap) (key : QString) (v : QVariant) :
    m.insert key v = m ↔ m.find key = some v := by
  obtain ⟨es⟩ := m
  unfold QVariantMap.insert QVariantMap.find
  rw [← insertEntry_eq_self_iff]
  constructor
  · intro h
    injection h
  · intro h
    show QVariantMap.mk _ = QVariantMap.mk _
    rw [h]

theorem find_mem_entries (m : QVariantMap) (key : QString) (v : QVariant)
    (h : m.find key = some v) : ∃ e ∈ m.entries, e.2 = v := by
  unfold QVariantMap.find at h
  cases hf : m.entries.find? (fun e => decide (e.1 = key)) with
  | none =>
    rw [hf] at h
    cases h
  | some e =>
    rw [hf] at h
    exact ⟨e, List.mem_of_find?_eq_some hf, by simpa using h⟩

theorem parsedRecord_insertEntry (key : QString) (v : QVariant) (hv : v.isText = true)
    (es : List (QString × QVariant)) (h : ∀ e ∈ es, e.2.isText = true) :
    ∀ e ∈ QVariantMap.insertEntry key v es, e.2.isText = true := by
  induction es with
  | nil =>
    intro e he
    rw [QVariantMap.insertEntry] at he
    rw [List.mem_singleton.mp he]
    exact hv
  | cons e0 es ih =>
    intro e he
    rw [QVariantMap.insertEntry] at he
    by_cases hk : e0.1 = key
    · rw [if_pos hk] at he
      rcases List.mem_cons.mp he with h1 | h1
      · rw [h1]
        exact hv
      · exact h e (List.mem_cons_of_mem _ h1)
    · rw [if_neg hk] at he
      rcases List.mem_cons.mp he with h1 | h1
      · rw [h1]
        exact h e0 (List.mem_cons_self _ _)
      · exact ih (fun x hx => h x (List.mem_cons_of_mem _ hx)) e h1

theorem isText_of_ne_nil (text : QString) (h : text ≠ []) :
    (QVariant.string text).isText = true := by
  cases text with
  | nil => exact absurd rfl h
  | cons c cs => rfl

theorem storeToken_parsedRecord (values : QVariantMap) (current : QString) (tok : Token)
    (h : parsedRecord values) : parsedRecord (storeToken (values, current) tok).1 := by
  cases tok with
  | characters text =>
    show parsedRecord (if _ then _ else _ : QVariantMap × QString).1
    split
    · rename_i hc
      exact parsedRecord_insertEntry current _ (isText_of_ne_nil _ hc.2) values.entries h
    · exact h
  | _ => exact h

theorem parseStep_parsedRecord {σ ε : Type} (cb : QVariantMap → σ → Except ε σ)
    (st next : Locals × σ) (tok : Token) (hrec : parsedRecord st.1.elementValues)
    (h : parseStep cb st tok = .ok next) : parsedRecord next.1.elementValues := by
  obtain ⟨loc, self⟩ := st
  by_cases hname : tok.name = MESSAGE
  · cases hin : loc.readingMessage with
    | false =>
      rw [parseStep_open cb loc self tok hin hname] at h
      injection h with h
      rw [← h]
      intro e he
      cases he
    | true =>
      rw [parseStep_close cb loc self tok hin hname] at h
      cases hcb : cb loc.elementValues self with
      | error e =>
        rw [hcb] at h
        cases h
      | ok s =>
        rw [hcb] at h
        injection h with h
        rw [← h]
        exact hrec
  · cases hin : loc.readingMessage with
    | false =>
      rw [parseStep_outside cb loc self tok hin hname] at h
      injection h with h
      rw [← h]
      exact hrec
    | true =>
      rw [parseStep_inside cb loc self tok hin hname] at h
      injection h with h
      rw [← h]
      exact storeToken_parsedRecord _ _ tok hrec

theorem parseLoop_parsedRecord {σ ε : Type} (cb : QVariantMap → σ → Except ε σ)
    (tokens : List Token) (st final : Locals × σ) (hrec : parsedRecord st.1.elementValues)
    (h : parseLoop cb tokens st = .ok final) : parsedRecord final.1.elementValues := by
  induction tokens generalizing st with
  | nil =>
    injection h with h
    rw [← h]
    exact hrec
  | cons tok tokens ih =>
    rw [parseLoop_cons] at h
    cases hstep : parseStep cb st tok with
    | error e =>
      rw [hstep] at h
      cases h
    | ok next =>
      rw [hstep] at h
      exact ih next (parseStep_parsedRecord cb st next tok hrec hstep) h

theorem resolveWkid_eq (rawAttributes : QVariantMap) :
    resolveWkid rawAttributes =
      (match rawAttributes.find FIELD_WKID with
        | some v => v.toInt
        | Option.none => 4326) := by
  unfold resolveWkid QVariantMap.value
  rw [keys_contains_eq]
  cases rawAttributes.find FIELD_WKID <;> rfl

theorem toString_ne_nil_of_isText (v : QVariant) (h : v.isText = true) : v.toString ≠ [] := by
  cases v with
  | invalid => cases h
  | string text =>
    cases text with
    | nil => cases h
    | cons c cs => exact List.cons_ne_nil c cs

theorem buildGeometry_fault_of_no_points {R : Type} (toDouble : QString → R)
    (rawAttributes : QVariantMap)
    (h : rawAttributes.find FIELD_CONTROL_POINTS = Option.none ∨
      rawAttributes.find FIELD_CONTROL_POINTS = some (QVariant.string [])) :
    buildGeometry toDouble rawAttributes = .error Fault.indexOutOfRange := by
  have hcp : (rawAttributes.value FIELD_CONTROL_POINTS).toString = [] := by
    unfold QVariantMap.value
    rcases h with h | h <;> rw [h] <;> rfl
  apply buildGeometry_one_token toDouble rawAttributes []
  · rw [hcp]
    simp
  · rw [hcp]
    rfl

theorem createGraphics_cons_fault {R : Type} [LinearOrder R] (toDouble : QString → R)
    (r : QVariantMap) (records : List QVariantMap) (self : Renderer R) (e : Fault)
    (h : createGraphic toDouble r self = .error e) :
    createGraphics toDouble (r :: records) self = .error e := by
  unfold createGraphics
  rw [List.foldlM_cons, h]
  rfl

theorem createGraphics_append_ok {R : Type} [LinearOrder R] (toDouble : QString → R)
    (front back : List QVariantMap) (self mid : Renderer R)
    (h : createGraphics toDouble front self = .ok mid) :
    createGraphics toDouble (front ++ back) self = createGraphics toDouble back mid := by
  unfold createGraphics at h ⊢
  rw [List.foldlM_append, h]
  rfl

theorem foldlM_logCall (records log : List QVariantMap) :
    records.foldlM (fun s r => logCall r s) log = .ok (log ++ records) := by
  induction records generalizing log with
  | nil => simp [pure, Except.pure]
  | cons r rs ih =>
    rw [List.foldlM_cons]
    show rs.foldlM (fun s r => logCall r s) (log ++ [r]) = _
    rw [ih]
    simp

theorem characters_name_ne (text : QString) : (Token.characters text).name ≠ MESSAGE := by
  show ([] : QString) ≠ MESSAGE
  decide

/-! ## The claims on createGraphic -/

/-- C1. Single-point path of `createGraphic`: when the `_control_points` value holds no
semicolon and splits on the comma into at least two tokens `c0`, `c1`, the geometry built is
the point whose X is the numeric reading of `c0` and whose Y is that of `c1`, in the resolved
spatial reference, and the call appends exactly one graphic, carrying that point. -/
theorem createGraphic_single_point {R : Type} [LinearOrder R] (toDouble : QString → R)
    (rawAttributes : QVariantMap) (self : Renderer R) (c0 c1 : QString) (more : List QString)
    (hsemi : ';' ∉ (rawAttributes.value FIELD_CONTROL_POINTS).toString)
    (htok : QString.split ',' (rawAttributes.value FIELD_CONTROL_POINTS).toString =
      c0 :: c1 :: more) :
    buildGeometry toDouble rawAttributes =
        .ok (Geometry.point (toDouble c0) (toDouble c1) (resolveWkid rawAttributes)) ∧
      ∃ graphic : Graphic R,
        graphic.geometry =
          Geometry.point (toDouble c0) (toDouble c1) (resolveWkid rawAttributes) ∧
        createGraphic toDouble rawAttributes self =
          .ok { graphics := self.graphics ++ [graphic]
                m_bbox := GeometryEngine.unionOf self.m_bbox graphic.geometry.extent } := by
  have hgeom := buildGeometry_point toDouble rawAttributes c0 c1 more hsemi htok
  refine ⟨hgeom, ⟨Geometry.point (toDouble c0) (toDouble c1) (resolveWkid rawAttributes),
    ((rawAttributes.touch FIELD_CONTROL_POINTS).remove FIELD_CONTROL_POINTS).remove
      FIELD_WKID⟩, rfl, ?_⟩
  rw [createGraphic_of_geometry toDouble rawAttributes self _ hgeom,
    appendGraphic_of_nonempty (Geometry.point (toDouble c0) (toDouble c1)
      (resolveWkid rawAttributes)) _ _ rfl]

/-- The record `_control_points="10,20"`, `_wkid="3857"` gives the point (10, 20) in the
spatial reference 3857, as the one graphic appended. -/
theorem createGraphic_single_point_witness :
    buildGeometry decimal (record [("_control_points", "10,20"), ("_wkid", "3857")]) =
        .ok (Geometry.point 10 20 3857) ∧
      ∃ graphic : Graphic Int, graphic.geometry = Geometry.point 10 20 3857 ∧
        createGraphic decimal (record [("_control_points", "10,20"), ("_wkid", "3857")])
            Renderer.init =
          .ok { graphics := [] ++ [graphic]
                m_bbox := GeometryEngine.unionOf Envelope.empty graphic.geometry.extent } :=
  createGraphic_single_point decimal (record [("_control_points", "10,20"), ("_wkid", "3857")])
    Renderer.init ("10".toList) ("20".toList) [] (by decide) (by rfl)

/-- C2. Multipoint path of `createGraphic`: when the `_control_points` value splits on the
semicolon into two or more pair strings, the point collection of the multipoint holds, in
input order, the point (first token, second token) of each pair that has at least two
comma-separated tokens and nothing for the other pairs; when every pair has at least two
tokens it has exactly as many points as there are pairs, the i-th point coming from the i-th
pair. The call itself completes with that geometry. -/
theorem createGraphic_multipoint {R : Type} [LinearOrder R] (toDouble : QString → R)
    (rawAttributes : QVariantMap) (self : Renderer R)
    (h : 2 ≤ (QString.split ';' (rawAttributes.value FIELD_CONTROL_POINTS).toString).length) :
    buildGeometry toDouble rawAttributes =
        .ok (Geometry.multipoint
          ((QString.split ';' (rawAttributes.value FIELD_CONTROL_POINTS).toString).filterMap
            (pairPoint toDouble)) (resolveWkid rawAttributes)) ∧
      createGraphic toDouble rawAttributes self =
        .ok (appendGraphic (Geometry.multipoint
          ((QString.split ';' (rawAttributes.value FIELD_CONTROL_POINTS).toString).filterMap
            (pairPoint toDouble)) (resolveWkid rawAttributes))
          (rawAttributes.touch FIELD_CONTROL_POINTS) self) ∧
      (∀ pointString : QString,
        (pairPoint toDouble pointString).isSome =
          decide (2 ≤ (QString.split ',' pointString).length)) ∧
      ((∀ pointString ∈ QString.split ';' (rawAttributes.value FIELD_CONTROL_POINTS).toString,
          2 ≤ (QString.split ',' pointString).length) →
        ((QString.split ';' (rawAttributes.value FIELD_CONTROL_POINTS).toString).filterMap
            (pairPoint toDouble)).length =
          (QString.split ';' (rawAttributes.value FIELD_CONTROL_POINTS).toString).length ∧
        (QString.split ';' (rawAttributes.value FIELD_CONTROL_POINTS).toString).map
            (pairPoint toDouble) =
          ((QString.split ';' (rawAttributes.value FIELD_CONTROL_POINTS).toString).filterMap
            (pairPoint toDouble)).map some) := by
  have hne : (QString.split ';' (rawAttributes.value FIELD_CONTROL_POINTS).toString).length ≠ 1 := by
    omega
  have hgeom := buildGeometry_multi toDouble rawAttributes hne
  refine ⟨hgeom, createGraphic_of_geometry toDouble rawAttributes self _ hgeom,
    pairPoint_isSome toDouble, fun hall => ?_⟩
  apply filterMap_of_all_some
  intro p hp
  rw [pairPoint_isSome]
  exact decide_eq_true (hall p hp)

/-- The record `_control_points="1,2;3,4"` without `_wkid` gives the multipoint of the
points (1, 2) and (3, 4) in the spatial reference 4326. -/
theorem createGraphic_multipoint_witness :
    buildGeometry decimal (record [("_control_points", "1,2;3,4")]) =
        .ok (Geometry.multipoint [(1, 2), (3, 4)] 4326) ∧
      createGraphic decimal (record [("_control_points", "1,2;3,4")]) Renderer.init =
        .ok { graphics := [⟨Geometry.multipoint [(1, 2), (3, 4)] 4326, record []⟩]
              m_bbox := Envelope.rect 1 2 3 4 } :=
  ⟨(createGraphic_multipoint decimal (record [("_control_points", "1,2;3,4")]) Renderer.init
      (by decide)).1,
    (createGraphic_multipoint decimal (record [("_control_points", "1,2;3,4")]) Renderer.init
      (by decide)).2.1⟩

/-- C4, what the code does. On a record whose `_control_points` field is absent or is the
empty string, `createGraphic` takes the single-point branch and reads `coords[1]` of a
one-element list: the call ends in an index fault instead of completing. -/
theorem createGraphic_empty_control_points_faults {R : Type} [LinearOrder R]
    (toDouble : QString → R) (rawAttributes : QVariantMap) (self : Renderer R)
    (h : rawAttributes.find FIELD_CONTROL_POINTS = Option.none ∨
      rawAttributes.find FIELD_CONTROL_POINTS = some (QVariant.string [])) :
    createGraphic toDouble rawAttributes self = .error Fault.indexOutOfRange := by
  have hcp : (rawAttributes.value FIELD_CONTROL_POINTS).toString = [] := by
    unfold QVariantMap.value
    rcases h with h | h <;> rw [h] <;> rfl
  apply createGraphic_of_fault
  apply buildGeometry_one_token toDouble rawAttributes []
  · rw [hcp]
    simp
  · rw [hcp]
    rfl

/-- A record without `_control_points` (here with a symbol code only), on a renderer that
already holds a bounding box, faults. -/
theorem createGraphic_empty_control_points_faults_witness :
    createGraphic decimal (record [("sic", "SFGPU")]) ⟨[], Envelope.rect 0 0 1 1⟩ =
      .error Fault.indexOutOfRange :=
  createGraphic_empty_control_points_faults decimal (record [("sic", "SFGPU")])
    ⟨[], Envelope.rect 0 0 1 1⟩ (Or.inl (by decide))

/-- C6. Attribute frame of `createGraphic`: for a record whose geometry is built and is not
empty, the call appends a graphic with that geometry whose attribute map has neither
`_control_points` nor `_wkid`, and has for every other field name the same presence and
value as the record. -/
theorem createGraphic_attribute_frame {R : Type} [LinearOrder R] (toDouble : QString → R)
    (rawAttributes : QVariantMap) (self : Renderer R) (geom : Geometry R)
    (hgeom : buildGeometry toDouble rawAttributes = .ok geom)
    (hne : geom.isEmpty = false) :
    ∃ graphic : Graphic R,
      createGraphic toDouble rawAttributes self =
        .ok { graphics := self.graphics ++ [graphic]
              m_bbox := GeometryEngine.unionOf self.m_bbox geom.extent } ∧
      graphic.geometry = geom ∧
      graphic.attributes.find FIELD_CONTROL_POINTS = Option.none ∧
      graphic.attributes.find FIELD_WKID = Option.none ∧
      graphic.attributes.keys.contains FIELD_CONTROL_POINTS = false ∧
      graphic.attributes.keys.contains FIELD_WKID = false ∧
      ∀ key : QString, key ≠ FIELD_CONTROL_POINTS → key ≠ FIELD_WKID →
        graphic.attributes.find key = rawAttributes.find key := by
  have hcw : FIELD_CONTROL_POINTS ≠ FIELD_WKID := by decide
  have h1 : (((rawAttributes.touch FIELD_CONTROL_POINTS).remove FIELD_CONTROL_POINTS).remove
      FIELD_WKID).find FIELD_CONTROL_POINTS = Option.none := by
    rw [find_remove_ne _ _ _ hcw, find_remove_self]
  have h2 : (((rawAttributes.touch FIELD_CONTROL_POINTS).remove FIELD_CONTROL_POINTS).remove
      FIELD_WKID).find FIELD_WKID = Option.none := find_remove_self _ _
  refine ⟨⟨geom, ((rawAttributes.touch FIELD_CONTROL_POINTS).remove
    FIELD_CONTROL_POINTS).remove FIELD_WKID⟩, ?_, rfl, h1, h2, ?_, ?_, ?_⟩
  · rw [createGraphic_of_geometry toDouble rawAttributes self geom hgeom,
      appendGraphic_of_nonempty _ _ _ hne]
  · rw [keys_contains_eq, h1]
    rfl
  · rw [keys_contains_eq, h2]
    rfl
  · intro key hk1 hk2
    show (((rawAttributes.touch FIELD_CONTROL_POINTS).remove FIELD_CONTROL_POINTS).remove
      FIELD_WKID).find key = rawAttributes.find key
    rw [find_remove_ne _ _ _ hk2, find_remove_ne _ _ _ hk1, find_touch_ne _ _ _ hk1]

/-- A record with the two reserved fields and two others: the graphic keeps the two
others, with their values, and nothing else. -/
theorem createGraphic_attribute_frame_witness :
    ∃ graphic : Graphic Int,
      createGraphic decimal
          (record [("sic", "SFGPU"), ("_control_points", "10,20"), ("_wkid", "3857"),
            ("uniquedesignation", "A1")]) Renderer.init =
        .ok { graphics := [] ++ [graphic]
              m_bbox := GeometryEngine.unionOf Envelope.empty
                (Geometry.point 10 20 3857 : Geometry Int).extent } ∧
      graphic.geometry = Geometry.point 10 20 3857 ∧
      graphic.attributes.find FIELD_CONTROL_POINTS = Option.none ∧
      graphic.attributes.find FIELD_WKID = Option.none ∧
      graphic.attributes.keys.contains FIELD_CONTROL_POINTS = false ∧
      graphic.attributes.keys.contains FIELD_WKID = false ∧
      ∀ key : QString, key ≠ FIELD_CONTROL_POINTS → key ≠ FIELD_WKID →
        graphic.attributes.find key =
          (record [("sic", "SFGPU"), ("_control_points", "10,20"), ("_wkid", "3857"),
            ("uniquedesignation", "A1")]).find key :=
  createGraphic_attribute_frame decimal
    (record [("sic", "SFGPU"), ("_control_points", "10,20"), ("_wkid", "3857"),
      ("uniquedesignation", "A1")]) Renderer.init (Geometry.point 10 20 3857) (by rfl) (by rfl)

/-- C7. Bounding accumulator: starting from the state after construction (no graphic, an
empty `m_bbox`), after a sequence of `createGraphic` calls `m_bbox` is the union of the
extents of the graphics appended so far: it encloses the extent of each of them and is
enclosed by every envelope that does (the smallest enclosing rectangle). A graphic appended
while `m_bbox` is empty seeds it with its own extent, and each call leaves `m_bbox`
enclosing its previous value. -/
theorem bbox_union_of_extents {R : Type} [LinearOrder R] (toDouble : QString → R) :
    (∀ (records : List QVariantMap) (final : Renderer R),
      createGraphics toDouble records Renderer.init = .ok final →
        final.m_bbox = unionAll (final.graphics.map (fun g => g.geometry.extent)) ∧
        (∀ g ∈ final.graphics, final.m_bbox.contains g.geometry.extent) ∧
        (∀ bound : Envelope R, (∀ g ∈ final.graphics, bound.contains g.geometry.extent) →
          bound.contains final.m_bbox)) ∧
    (∀ (rawAttributes : QVariantMap) (self final : Renderer R) (graphic : Graphic R),
      self.m_bbox = Envelope.empty →
      createGraphic toDouble rawAttributes self = .ok final →
      final.graphics = self.graphics ++ [graphic] →
        final.m_bbox = graphic.geometry.extent) ∧
    (∀ (rawAttributes : QVariantMap) (self final : Renderer R),
      createGraphic toDouble rawAttributes self = .ok final →
        final.m_bbox.contains self.m_bbox) := by
  refine ⟨fun records final h => ?_, fun rawAttributes self final graphic hempty h hg => ?_,
    fun rawAttributes self final h => ?_⟩
  · obtain ⟨h1, h2⟩ := createGraphics_ok toDouble records Renderer.init final h
    have hb : final.m_bbox = unionAll (final.graphics.map (fun g => g.geometry.extent)) := by
      rw [h2, h1]
      rfl
    refine ⟨hb, fun g hg => ?_, fun bound hbound => ?_⟩
    · rw [hb]
      exact (foldl_unionOf_contains _ Envelope.empty).2 _ (List.mem_map_of_mem _ hg)
    · rw [hb]
      refine foldl_unionOf_least _ Envelope.empty bound (by cases bound <;> trivial) ?_
      intro x hx
      obtain ⟨g, hg, rfl⟩ := List.mem_map.mp hx
      exact hbound g hg
  · obtain ⟨h1, h2⟩ := createGraphic_ok toDouble rawAttributes self final h
    rw [h1] at hg
    have hone := List.append_cancel_left hg
    rw [h2, hone, hempty]
    exact unionOf_empty_left _
  · obtain ⟨_, h2⟩ := createGraphic_ok toDouble rawAttributes self final h
    rw [h2]
    exact (foldl_unionOf_contains _ self.m_bbox).1

/-- Three calls from the initial state, the second with an empty geometry: `m_bbox` ends as
the rectangle around the point (10, 20) and the points (1, 2), (3, 4). -/
theorem bbox_union_of_extents_witness :
    createGraphics decimal
        [record [("_control_points", "10,20")], record [("_control_points", ";")],
          record [("_control_points", "1,2;3,4")]] Renderer.init =
      .ok { graphics := [⟨Geometry.point 10 20 4326, record []⟩,
              ⟨Geometry.multipoint [(1, 2), (3, 4)] 4326, record []⟩]
            m_bbox := Envelope.rect 1 2 10 20 } ∧
    (Envelope.rect 1 2 10 20 : Envelope Int) =
      unionAll [(Geometry.point 10 20 4326 : Geometry Int).extent,
        (Geometry.multipoint [(1, 2), (3, 4)] 4326 : Geometry Int).extent] :=
  ⟨rfl, ((bbox_union_of_extents decimal).1
    [record [("_control_points", "10,20")], record [("_control_points", ";")],
      record [("_control_points", "1,2;3,4")]]
    { graphics := [⟨Geometry.point 10 20 4326, record []⟩,
        ⟨Geometry.multipoint [(1, 2), (3, 4)] 4326, record []⟩]
      m_bbox := Envelope.rect 1 2 10 20 } rfl).1⟩

/-- The graphic collection after a sequence of `createGraphic` calls that completes: the
graphics it had before, unchanged and in place, followed in call order by one graphic for
each record whose geometry is not empty and none for the others. The sequence completes
whenever the control points of each record hold a semicolon or at least two comma-separated
tokens. -/
theorem createGraphics_appends {R : Type} [LinearOrder R] (toDouble : QString → R) :
    (∀ (records : List QVariantMap) (self final : Renderer R),
      createGraphics toDouble records self = .ok final →
        final.graphics = self.graphics ++ records.filterMap (graphicOf toDouble)) ∧
    (∀ (records : List QVariantMap) (self : Renderer R),
      (∀ r ∈ records, ';' ∈ (r.value FIELD_CONTROL_POINTS).toString ∨
        2 ≤ (QString.split ',' (r.value FIELD_CONTROL_POINTS).toString).length) →
        ∃ final, createGraphics toDouble records self = .ok final) :=
  ⟨fun records self final h => (createGraphics_ok toDouble records self final h).1,
    fun records self h => createGraphics_completes toDouble records self
      (fun r hr => buildGeometry_completes toDouble r (h r hr))⟩

/-- C8, what the code does. In a sequence of records passed to `createGraphic`, a record
whose `_control_points` field is absent or empty, reached after calls that complete, ends
the run in an index fault: no collection is left afterwards, whatever records follow. The
claim has such a record add no graphic and the later records add theirs. -/
theorem createGraphics_faults_at_record_without_points {R : Type} [LinearOrder R]
    (toDouble : QString → R) (done after : List QVariantMap) (skipped : QVariantMap)
    (self mid : Renderer R)
    (hdone : createGraphics toDouble done self = .ok mid)
    (hskipped : skipped.find FIELD_CONTROL_POINTS = Option.none ∨
      skipped.find FIELD_CONTROL_POINTS = some (QVariant.string [])) :
    createGraphics toDouble (done ++ skipped :: after) self = .error Fault.indexOutOfRange := by
  rw [createGraphics_append_ok toDouble done _ self mid hdone]
  exact createGraphics_cons_fault toDouble skipped after mid _
    (createGraphic_of_fault toDouble skipped mid _
      (buildGeometry_fault_of_no_points toDouble skipped hskipped))

/-- Two records, the first without control points and the second the point (10, 20): the
run faults at the first, and the graphic of the second is never made. -/
theorem createGraphics_faults_at_record_without_points_witness :
    createGraphics decimal
        ([] ++ record [("sic", "SFGPU")] :: [record [("_control_points", "10,20")]])
        Renderer.init = .error Fault.indexOutOfRange :=
  createGraphics_faults_at_record_without_points decimal []
    [record [("_control_points", "10,20")]] (record [("sic", "SFGPU")]) Renderer.init
    Renderer.init (by rfl) (Or.inl (by decide))

/-! ## The claims on parseXmlFile -/

/-- The calls that `parseXmlFile` makes, for any method in place of `createGraphic`: on a
token stream made of complete messages whose content holds no tag named `message`, with no
such tag between them, possibly ending in a message whose end tag never arrives, the method
is called for the records of the complete messages in document order, each call starting
from the state the previous one returned, and the run ends at the first call that fails.
With the call log as the method, the log is the list of those records. -/
theorem parseXmlFileWith_document {σ ε : Type}
    (createGraphic : QVariantMap → σ → Except ε σ) (messages : List Message)
    (rest : List Token) (unterminated : Option (List Token)) (self : σ)
    (hgap : ∀ m ∈ messages, noMessageTag m.gap) (hbody : ∀ m ∈ messages, noMessageTag m.body)
    (hrest : noMessageTag rest)
    (hunt : ∀ body, unterminated = some body → noMessageTag body) :
    parseXmlFileWith createGraphic (document messages rest unterminated) self =
        (messageRecords [] (messages.map Message.body)).foldlM
          (fun s r => createGraphic r s) self ∧
      parseXmlFileWith logCall (document messages rest unterminated) [] =
        .ok (messageRecords [] (messages.map Message.body)) ∧
      (messageRecords [] (messages.map Message.body)).length = messages.length := by
  refine ⟨?_, ?_, ?_⟩
  · exact parseLoop_document createGraphic messages rest unterminated Locals.init self rfl
      hgap hbody hrest hunt
  · have h := parseLoop_document logCall messages rest unterminated Locals.init [] rfl
      hgap hbody hrest hunt
    unfold parseXmlFileWith
    rw [h, foldlM_logCall]
    rfl
  · rw [messageRecords_length, List.length_map]

/-- C5, what the code does. On a well-formed stream of complete messages, `parseXmlFile`
hands the records of the messages to `createGraphic` in document order, one call at each end
tag, as long as the calls complete. When the first message has no `_control_points` (or an
empty one), that first call ends in an index fault and the run with it: none of the calls
for the messages that follow is made, although the stream holds as many message records as
messages. -/
theorem parseXmlFile_stops_at_message_without_points {R : Type} [LinearOrder R]
    (toDouble : QString → R) (first : Message) (others : List Message) (rest : List Token)
    (unterminated : Option (List Token)) (self : Renderer R)
    (hgap : ∀ m ∈ first :: others, noMessageTag m.gap)
    (hbody : ∀ m ∈ first :: others, noMessageTag m.body)
    (hrest : noMessageTag rest)
    (hunt : ∀ body, unterminated = some body → noMessageTag body)
    (hpoints : (messageRecord [] first.body).1.find FIELD_CONTROL_POINTS = Option.none ∨
      (messageRecord [] first.body).1.find FIELD_CONTROL_POINTS = some (QVariant.string [])) :
    parseXmlFile toDouble (document (first :: others) rest unterminated) self =
        createGraphics toDouble (messageRecords [] ((first :: others).map Message.body)) self ∧
      parseXmlFile toDouble (document (first :: others) rest unterminated) self =
        .error Fault.indexOutOfRange ∧
      parseXmlFileWith logCall (document (first :: others) rest unterminated) [] =
        .ok (messageRecords [] ((first :: others).map Message.body)) ∧
      (messageRecords [] ((first :: others).map Message.body)).length = others.length + 1 := by
  obtain ⟨h1, h2, h3⟩ := parseXmlFileWith_document (createGraphic toDouble) (first :: others)
    rest unterminated self hgap hbody hrest hunt
  have hrun : parseXmlFile toDouble (document (first :: others) rest unterminated) self =
      createGraphics toDouble (messageRecords [] ((first :: others).map Message.body)) self :=
    h1
  refine ⟨hrun, ?_, ?_, ?_⟩
  · rw [hrun, List.map_cons, messageRecords]
    exact createGraphics_cons_fault toDouble _ _ self _
      (createGraphic_of_fault toDouble _ self _
        (buildGeometry_fault_of_no_points toDouble _ hpoints))
  · exact (parseXmlFileWith_document logCall (first :: others) rest unterminated []
      hgap hbody hrest hunt).2.1
  · rw [h3, List.length_cons]

/-- A document of two complete messages, the first with a symbol code only and the second
with control points: `parseXmlFile` faults at the end tag of the first message, while the
stream holds two message records. -/
theorem parseXmlFile_stops_at_message_without_points_witness :
    parseXmlFile decimal
        (document
          [⟨[Token.startDocument, startTag ("messages")],
              [startTag ("sic"), chars ("SFGPU"), endTag ("sic")]⟩,
            ⟨[chars ("\n")],
              [startTag ("_control_points"), chars ("10,20"), endTag ("_control_points")]⟩]
          [endTag ("messages"), Token.endDocument] Option.none) Renderer.init =
        .error Fault.indexOutOfRange ∧
      parseXmlFileWith logCall
        (document
          [⟨[Token.startDocument, startTag ("messages")],
              [startTag ("sic"), chars ("SFGPU"), endTag ("sic")]⟩,
            ⟨[chars ("\n")],
              [startTag ("_control_points"), chars ("10,20"), endTag ("_control_points")]⟩]
          [endTag ("messages"), Token.endDocument] Option.none) [] =
        .ok [record [("sic", "SFGPU")], record [("_control_points", "10,20")]] :=
  ⟨(parseXmlFile_stops_at_message_without_points decimal
      ⟨[Token.startDocument, startTag ("messages")],
        [startTag ("sic"), chars ("SFGPU"), endTag ("sic")]⟩
      [⟨[chars ("\n")],
        [startTag ("_control_points"), chars ("10,20"), endTag ("_control_points")]⟩]
      [endTag ("messages"), Token.endDocument] Option.none Renderer.init
      (by decide) (by decide) (by decide) (by decide) (Or.inl (by decide))).2.1,
    by rfl⟩

/-- C9, as the code has it. Inside a message, on a text token: when the active field name
is not empty and the trimmed text is not empty, the working record gets the trimmed text as
the value of the active field name, every other field keeping its presence and value;
otherwise the record stays as it is. So the record changes exactly when the active field
name is not empty, the trimmed text is not empty and the active field does not already hold
that text. Text made of white space only, and the end tag of a child element, leave the
whole parser state unchanged; so does every token that lines 118 to 141 handle outside a
message (a token not named `message`). -/
theorem parseStep_trim_and_store {σ ε : Type} (createGraphic : QVariantMap → σ → Except ε σ)
    (loc : Locals) (self : σ) :
    (∀ text : QString, loc.readingMessage = true →
      parseStep createGraphic (loc, self) (Token.characters text) =
        .ok ({ loc with elementValues :=
                (if loc.currentElementName ≠ [] ∧ QString.trimmed text ≠ [] then
                  loc.elementValues.insert loc.currentElementName
                    (QVariant.string (QString.trimmed text))
                else loc.elementValues) }, self)) ∧
    (∀ text : QString,
      (if loc.currentElementName ≠ [] ∧ QString.trimmed text ≠ [] then
          loc.elementValues.insert loc.currentElementName
            (QVariant.string (QString.trimmed text))
        else loc.elementValues) ≠ loc.elementValues ↔
        (loc.currentElementName ≠ [] ∧ QString.trimmed text ≠ []) ∧
          loc.elementValues.find loc.currentElementName ≠
            some (QVariant.string (QString.trimmed text))) ∧
    (∀ text : QString,
      (loc.elementValues.insert loc.currentElementName
          (QVariant.string (QString.trimmed text))).find loc.currentElementName =
        some (QVariant.string (QString.trimmed text)) ∧
      ∀ key : QString, key ≠ loc.currentElementName →
        (loc.elementValues.insert loc.currentElementName
          (QVariant.string (QString.trimmed text))).find key = loc.elementValues.find key) ∧
    (∀ text : QString, (∀ c ∈ text, QChar.isSpace c = true) → loc.readingMessage = true →
      parseStep createGraphic (loc, self) (Token.characters text) = .ok (loc, self)) ∧
    (∀ name : QString, name ≠ MESSAGE → loc.readingMessage = true →
      parseStep createGraphic (loc, self) (Token.endElement name) = .ok (loc, self)) ∧
    (∀ tok : Token, tok.name ≠ MESSAGE → loc.readingMessage = false →
      parseStep createGraphic (loc, self) tok = .ok (loc, self)) := by
  have htext : ∀ text : QString, loc.readingMessage = true →
      parseStep createGraphic (loc, self) (Token.characters text) =
        .ok ({ loc with elementValues :=
                (if loc.currentElementName ≠ [] ∧ QString.trimmed text ≠ [] then
                  loc.elementValues.insert loc.currentElementName
                    (QVariant.string (QString.trimmed text))
                else loc.elementValues) }, self) := by
    intro text hin
    rw [parseStep_inside createGraphic loc self _ hin (characters_name_ne text)]
    obtain ⟨reading, values, current⟩ := loc
    simp only at hin
    subst hin
    by_cases hc : current ≠ [] ∧ QString.trimmed text ≠ []
    · simp only [storeToken, hc, and_self, if_true, ne_eq, not_false_eq_true]
    · simp only [storeToken, hc, if_false]
  refine ⟨htext, fun text => ?_,
    fun text => ⟨find_insert_self _ _ _, fun key hk => find_insert_ne _ _ _ hk _⟩,
    fun text hspace hin => ?_, fun name hname hin => ?_, fun tok htok hout => ?_⟩
  · by_cases hc : loc.currentElementName ≠ [] ∧ QString.trimmed text ≠ []
    · rw [if_pos hc]
      constructor
      · intro hne
        exact ⟨hc, fun hf => hne ((insert_eq_self_iff _ _ _).mpr hf)⟩
      · intro h hins
        exact h.2 ((insert_eq_self_iff _ _ _).mp hins)
    · rw [if_neg hc]
      constructor
      · intro hne
        exact absurd rfl hne
      · intro h
        exact absurd h.1 hc
  · rw [htext text hin, trimmed_of_all_space text hspace]
    simp
  · rw [parseStep_inside createGraphic loc self (Token.endElement name) hin hname]
    obtain ⟨reading, values, current⟩ := loc
    simp only at hin
    subst hin
    rfl
  · exact parseStep_outside createGraphic loc self tok hout htok

/-- Inside a message with `sic` as the active field, the text " SFGPU " is stored, trimmed,
under `sic`, and the other field of the record keeps its value. -/
theorem parseStep_trim_and_store_witness :
    parseStep logCall
        (⟨true, record [("_wkid", "3857"), ("sic", "old")], "sic".toList⟩, [])
        (chars (" SFGPU ")) =
      .ok (⟨true, record [("_wkid", "3857"), ("sic", "SFGPU")], "sic".toList⟩, []) :=
  ((parseStep_trim_and_store logCall
    ⟨true, record [("_wkid", "3857"), ("sic", "old")], "sic".toList⟩ []).1
      (" SFGPU ".toList) rfl).trans (by rfl)

/-- C9, as stated, fails when the text repeats the value the active field already holds:
after `<message><sic>A</sic>` the parser is inside a message with `sic` as the active field
and `sic = "A"` in the working record; the text " A " that follows has a trimmed form that
is not empty, and the working record after it is what it was before. -/
theorem parseStep_same_value_counterexample :
    parseLoop logCall [startTag ("message"), startTag ("sic"), chars ("A"), endTag ("sic")]
        (Locals.init, []) =
      .ok (⟨true, record [("sic", "A")], "sic".toList⟩, []) ∧
    ("sic".toList ≠ [] ∧ QString.trimmed (" A ".toList) ≠ []) ∧
    parseStep logCall (⟨true, record [("sic", "A")], "sic".toList⟩, []) (chars (" A ")) =
      .ok (⟨true, record [("sic", "A")], "sic".toList⟩, []) :=
  ⟨by rfl, by decide, by rfl⟩

end GraphicsOverlayDictionaryRenderer
